import Mathlib

/-!
Verification of the pagination engine of the FableWeaver story front end.

The development shallowly embeds the TypeScript code of
`src/components/BookLayout.tsx` (chapter splitting, greedy word packing into
pages, parity filler, spread navigation) and `src/App.tsx`
(`updateCharacters`).  JavaScript strings are modelled as `List Char`,
`String.split(' ')` as `splitChar ' '`, the regular expression `\n##\s+` used by
`content.split` as the scanner `splitChapters`, and the regular expression
`[.!?]"?$` as `endsSentence`.
-/

/-- JS strings are modelled as lists of characters. -/
abbrev Str := List Char

/-- Shorthand turning a Lean string literal into the model's string type. -/
def strLit (s : String) : Str := s.toList

/-- The decimal digits of a number, as the model's string type
(mirrors JS template interpolation of a number). -/
def natStr (n : Nat) : Str := Nat.toDigits 10 n

/-- The character class matched by JavaScript's `\s` (and removed by
`String.prototype.trim`): ASCII whitespace plus the Unicode space
characters, line separators and the BOM. -/
def isWs (c : Char) : Bool :=
  c == ' ' || c == '\t' || c == '\n' || c == '\x0b' || c == '\x0c' || c == '\r' ||
  c == '\u00A0' || c == '\u1680' ||
  (decide ('\u2000' ≤ c) && decide (c ≤ '\u200A')) ||
  c == '\u2028' || c == '\u2029' || c == '\u202F' || c == '\u205F' ||
  c == '\u3000' || c == '\uFEFF'

/-- `String.prototype.trim`: strip leading and trailing whitespace. -/
def trimS (s : Str) : Str :=
  ((s.dropWhile isWs).reverse.dropWhile isWs).reverse

/-- Helper for string splitting: prepend a character to the first piece. -/
def consHead (x : Char) : List Str → List Str
  | [] => [[x]]
  | w :: ws => (x :: w) :: ws

/-- JS `String.prototype.split` on a single-character separator:
`"".split(' ') = [""]`, `"a  b".split(' ') = ["a","","b"]`. -/
def splitChar (c : Char) : Str → List Str
  | [] => [[]]
  | x :: xs => if x == c then [] :: splitChar c xs else consHead x (splitChar c xs)

/-- JS `Array.prototype.join(' ')`. -/
def joinSpace : List Str → Str
  | [] => []
  | [w] => w
  | w :: ws => w ++ ' ' :: joinSpace ws

/-- Does the string begin with an occurrence of the split pattern `\n##\s+`?
(newline, two hashes, at least one whitespace character). -/
def isMarkerStart : Str → Bool
  | x :: y :: z :: c :: _ => x == '\n' && y == '#' && z == '#' && isWs c
  | _ => false

/-- Does the string contain an occurrence of the split pattern `\n##\s+`
anywhere? -/
def hasMarkerB : Str → Bool
  | [] => false
  | x :: xs => isMarkerStart (x :: xs) || hasMarkerB xs

/-- Does the string contain the four-character substring `"\n## "` (newline,
two hashes, one plain space)? -/
def isLiteralMarkerStart : Str → Bool
  | x :: y :: z :: u :: _ => x == '\n' && y == '#' && z == '#' && u == ' '
  | _ => false

def hasLiteralMarker : Str → Bool
  | [] => false
  | x :: xs => isLiteralMarkerStart (x :: xs) || hasLiteralMarker xs

/-- The scanner behind `rawContent.split(/\n##\s+/)`, driven by a fuel
argument so that it is structurally recursive (the fuel is always at least the
string length, so the base case is never reached): cut the string at every
newline followed by `##` and a whitespace run; the whole matched separator (the
maximal whitespace run included, since `\s+` is greedy) is consumed. -/
def splitChaptersF : Nat → Str → List Str
  | 0, s => [s]
  | _ + 1, [] => [[]]
  | fuel + 1, x :: xs =>
    if isMarkerStart (x :: xs) then
      [] :: splitChaptersF fuel ((xs.drop 2).dropWhile isWs)
    else
      consHead x (splitChaptersF fuel xs)

/-- `rawContent.split(/\n##\s+/)`. -/
def splitChapters (s : Str) : List Str := splitChaptersF s.length s

/-- `str.startsWith('##')`. -/
def startsWithHH : Str → Bool
  | a :: b :: _ => a == '#' && b == '#'
  | _ => false

/-- `title.replace(/^#+\s*/, '')`: if the title begins with a hash, strip the
maximal run of hashes and the following whitespace run; otherwise unchanged. -/
def cleanTitle (t : Str) : Str :=
  match t with
  | a :: _ =>
    if a == '#' then (t.dropWhile (fun c => c == '#')).dropWhile isWs else t
  | [] => t

/-- `lastWord.match(/[.!?]"?$/)`: the token ends in `.`, `!` or `?`,
optionally followed by a double quote. -/
def isPunct (c : Char) : Bool := c == '.' || c == '!' || c == '?'

def endsSentence (w : Str) : Bool :=
  match w.reverse with
  | a :: rest =>
    if a == '"' then
      match rest with
      | c :: _ => isPunct c
      | [] => false
    else isPunct a
  | [] => false

/- ### Data model (src/types.ts) -/

/-- `Choice` of `src/types.ts` (`tone` is kept as a plain string). -/
structure Choice where
  id : Str
  text : Str
  tone : Str
deriving DecidableEq

/-- `StoryStats` of `src/types.ts`. -/
structure StoryStats where
  tension : Int
  mystery : Int
  romance : Int
  hope : Int
deriving DecidableEq

/-- A stored character.  The code can create entries from a partial update via
`update as Character`, so `status` and `description` may be absent. -/
structure Character where
  name : Str
  role : Str
  affinity : Int
  status : Option Str
  description : Option Str
deriving DecidableEq

/-- `Partial<Character>`: every field optional (an absent key is `none`). -/
structure CharacterUpdate where
  name : Option Str
  role : Option Str
  affinity : Option Int
  status : Option Str
  description : Option Str
deriving DecidableEq

/-- `StoryNode` of `src/types.ts` (the fields the layout reads, plus the
metadata carried along). -/
structure StoryNode where
  id : Str
  chapterTitle : Str
  content : Str
  choices : List Choice
  characterUpdates : List CharacterUpdate
  stats : StoryStats
  summary : Str
  backgroundImagePrompt : Option Str
deriving DecidableEq

/-- `GameMode` of `src/types.ts`. -/
inductive GameMode where
  | INTERACTIVE
  | LINEAR
deriving DecidableEq

/-- `PageType` of `BookLayout.tsx`. -/
inductive PageType where
  | TEXT
  | IMAGE_AND_TEXT
  | FULL_IMAGE
deriving DecidableEq

/-- `BookPage` of `BookLayout.tsx`; optional fields that a given push leaves
unset are `none`. -/
structure BookPage where
  id : Str
  type : PageType
  content : Str
  imagePrompt : Option Str
  choices : Option (List Choice)
  pageNumber : Nat
  chapterTitle : Str
  isChapterStart : Option Bool
deriving DecidableEq

/-- A chapter section produced by the splitter (`{title, body, isNewChapter}`). -/
structure ChapterSection where
  title : Str
  body : Str
  isNewChapter : Bool
deriving DecidableEq

/- ### ChapterSplitter (BookLayout.tsx lines 82-115) -/

/-- Parsing of a raw section text in the new-chapter case (`idx > 0`, or
`idx = 0` with content starting with `##`): the text up to the first newline is
the title, the rest the body; with no newline the whole text is the title. -/
def parseHeaderSection (s : Str) : ChapterSection :=
  let pre := s.takeWhile (fun c => !(c == '\n'))
  let post := s.dropWhile (fun c => !(c == '\n'))
  if post.isEmpty then
    { title := cleanTitle (trimS s), body := [], isNewChapter := true }
  else
    { title := cleanTitle (trimS pre), body := trimS post, isNewChapter := true }

/-- The indexed `rawSections.map` of the source: the zeroth element is dropped
when whitespace-only, parsed as a header when the (unprepended) trimmed content
starts with `##`, and otherwise is a continuation titled by the fragment's own
`chapterTitle`; all later elements are headers. -/
def sectionsOfRaw (node : StoryNode) : List Str → List ChapterSection
  | [] => []
  | s0 :: rest =>
    (if (trimS s0).isEmpty then []
     else if startsWithHH (trimS node.content) then [parseHeaderSection s0]
     else [{ title := cleanTitle node.chapterTitle, body := s0, isNewChapter := false }])
    ++ rest.map parseHeaderSection

/-- The `sections` value of `BookLayout.tsx`: prepend a newline, split on the
chapter marker pattern, parse each piece, and keep sections with a non-empty
body or a chapter start. -/
def computeSections (node : StoryNode) : List ChapterSection :=
  (sectionsOfRaw node (splitChapters ('\n' :: node.content))).filter
    (fun s => !s.body.isEmpty || s.isNewChapter)

/- ### Paginator (BookLayout.tsx lines 65-171) -/

/-- `WORDS_PER_PAGE` (line 26). -/
def WORDS_PER_PAGE : Nat := 130

/-- The per-page word budget: `WORDS_PER_PAGE - 50` for the first page of a
new-chapter section, `WORDS_PER_PAGE` otherwise (line 126). -/
def pageLimit (isFirst isNew : Bool) : Nat :=
  if isFirst && isNew then WORDS_PER_PAGE - 50 else WORDS_PER_PAGE

/-- The inner packing loop (lines 122-143), with the page pushes abstracted to
the produced word chunks: returns the closed chunks, the leftover buffer, and
the final `isFirstPageOfSection` flag. -/
def packWords (isNew : Bool) : List Str → List Str → Bool → List (List Str) × List Str × Bool
  | [], chunk, isFirst => ([], chunk, isFirst)
  | w :: ws, chunk, isFirst =>
    let chunk' := chunk ++ [w]
    let limit := pageLimit isFirst isNew
    if decide (limit ≤ chunk'.length) &&
        (endsSentence w || decide (limit + 20 < chunk'.length)) then
      let r := packWords isNew ws [] false
      (chunk' :: r.1, r.2)
    else
      packWords isNew ws chunk' isFirst

/-- The chunks a section's body is packed into: the body is tokenized on
single spaces and fed to the packing loop with an empty buffer. -/
def sectionChunks (sec : ChapterSection) : List (List Str) × List Str :=
  let r := packWords sec.isNewChapter (splitChar ' ' sec.body) [] true
  (r.1, r.2.1)

/-- The claim's closing rule for a buffer under word budget `L`: the buffer has
reached the budget, and its most recent token ends a sentence or the buffer
overruns the budget by more than 20 tokens. -/
def closesAtB (L : Nat) (c : List Str) : Bool :=
  decide (L ≤ c.length) &&
    (endsSentence (c.getLast?.getD []) || decide (L + 20 < c.length))

/-- The claim's word budget for the `j`-th chunk of a section: `W - 50` for
the first chunk of a new-chapter section, `W` otherwise. -/
def chunkLimit (isNew : Bool) (j : Nat) : Nat :=
  if j == 0 && isNew then WORDS_PER_PAGE - 50 else WORDS_PER_PAGE

/-- A closed chunk is produced exactly by the greedy rule: it satisfies the
closing rule, and no shorter non-empty prefix of it does (tokens keep
accumulating until the rule first fires). -/
def ChunkOkP (L : Nat) (c : List Str) : Prop :=
  closesAtB L c = true ∧
    ∀ i, i < c.length → 0 < i → closesAtB L (c.take i) = false

/-- The leftover buffer never satisfied the closing rule at any point,
including its full length. -/
def FinOkP (L : Nat) (f : List Str) : Prop :=
  ∀ i, i ≤ f.length → 0 < i → closesAtB L (f.take i) = false

/-- The pages pushed inside the packing loop (lines 131-138), one per closed
chunk, numbering from `c`; also returns the counter after the pushes. -/
def closedPages (node : StoryNode) (sIdx : Nat) (isNew : Bool) (title : Str) :
    List (List Str) → Nat → Bool → List BookPage × Nat
  | [], c, _ => ([], c)
  | ch :: chs, c, isFirst =>
    let pg : BookPage :=
      { id := node.id ++ strLit "-sec" ++ natStr sIdx ++ strLit "-pg" ++ natStr c
        type := PageType.TEXT
        content := joinSpace ch
        imagePrompt := none
        choices := none
        pageNumber := c
        chapterTitle := title
        isChapterStart := some (isFirst && isNew) }
    let r := closedPages node sIdx isNew title chs (c + 1) false
    (pg :: r.1, r.2)

/-- All pages of one section (lines 117-157): the closed-chunk pages followed,
when the leftover buffer is non-empty or the section is an unpaged chapter
start, by the `-end` page, which carries the fragment's choices when the
section is the fragment's last. -/
def sectionPages (node : StoryNode) (sIdx : Nat) (isLast : Bool)
    (sec : ChapterSection) (c : Nat) : List BookPage × Nat :=
  let ck := sectionChunks sec
  let r := closedPages node sIdx sec.isNewChapter sec.title ck.1 c true
  if !ck.2.isEmpty || (ck.1.isEmpty && sec.isNewChapter) then
    (r.1 ++
      [{ id := node.id ++ strLit "-sec" ++ natStr sIdx ++ strLit "-end"
         type := PageType.TEXT
         content := joinSpace ck.2
         imagePrompt := none
         choices := if isLast then some node.choices else none
         pageNumber := r.2
         chapterTitle := sec.title
         isChapterStart := some (ck.1.isEmpty && sec.isNewChapter) }],
     r.2 + 1)
  else
    (r.1, r.2)

/-- The `sections.forEach` loop: pages of a list of sections, threading the
section index and the global counter; a section is last exactly when no
sections follow it. -/
def sectionsPagesList (node : StoryNode) :
    List ChapterSection → Nat → Nat → List BookPage × Nat
  | [], _, c => ([], c)
  | s :: ss, sIdx, c =>
    let r1 := sectionPages node sIdx ss.isEmpty s c
    let r2 := sectionsPagesList node ss (sIdx + 1) r1.2
    (r1.1 ++ r2.1, r2.2)

/-- Pages of one fragment (lines 69-158): the optional illustration page
(present when the prompt is a non-empty string and this is the first fragment
or the mode is INTERACTIVE), followed by the text pages of its sections. -/
def nodePages (node : StoryNode) (nodeIndex : Nat) (m : GameMode) (c : Nat) :
    List BookPage × Nat :=
  let vis : List BookPage × Nat :=
    match node.backgroundImagePrompt with
    | some p =>
      if !p.isEmpty && (nodeIndex == 0 || m == GameMode.INTERACTIVE) then
        ([{ id := node.id ++ strLit "-visual"
            type := PageType.FULL_IMAGE
            content := []
            imagePrompt := some p
            choices := none
            pageNumber := c
            chapterTitle := node.chapterTitle
            isChapterStart := none }], c + 1)
      else ([], c)
    | none => ([], c)
  let txt := sectionsPagesList node (computeSections node) 0 vis.2
  (vis.1 ++ txt.1, txt.2)

/-- The `effectiveHistory.forEach` loop: pages of all fragments in history
order, threading the fragment index and the global page counter. -/
def historyPages (m : GameMode) : List StoryNode → Nat → Nat → List BookPage × Nat
  | [], _, c => ([], c)
  | n :: ns, i, c =>
    let r1 := nodePages n i m c
    let r2 := historyPages m ns (i + 1) r1.2
    (r1.1 ++ r2.1, r2.2)

/-- All pages generated before the parity padding. -/
def paginateCore (m : GameMode) (h : List StoryNode) : List BookPage :=
  (historyPages m h 0 1).1

/-- The blank filler page (lines 161-167). -/
def fillerPage (n : Nat) : BookPage :=
  { id := strLit "filler-end"
    type := PageType.TEXT
    content := []
    imagePrompt := none
    choices := none
    pageNumber := n
    chapterTitle := []
    isChapterStart := none }

/-- The complete `pages` value (lines 65-171): the generated pages, with one
blank filler page appended when their number is odd. -/
def paginate (m : GameMode) (h : List StoryNode) : List BookPage :=
  let r := historyPages m h 0 1
  if r.1.length % 2 ≠ 0 then r.1 ++ [fillerPage r.2] else r.1

/-- A page is a text page. -/
def isTextPage (p : BookPage) : Bool :=
  match p.type with
  | PageType.TEXT => true
  | _ => false

/-- A page carries choices: a non-empty choice list is attached. -/
def carriesChoices (p : BookPage) : Bool :=
  match p.choices with
  | some l => !l.isEmpty
  | none => false

/- ### SpreadNavigator (BookLayout.tsx lines 184-194) -/

/-- `handleNextFlip`: advance one spread unless at the last spread. -/
def advance (pageCount : Int) (i : Int) : Int :=
  if i < pageCount - 2 then i + 2 else i

/-- `handlePrevFlip`: retreat one spread unless at the first spread. -/
def retreat (i : Int) : Int :=
  if 0 < i then i - 2 else i

/- ### Character merge (App.tsx lines 309-320) -/

/-- JS truthiness of `update.name` (an absent key or empty string is falsy). -/
def truthyName (u : CharacterUpdate) : Bool :=
  match u.name with
  | some n => !n.isEmpty
  | none => false

/-- JS truthiness of `update.role`. -/
def truthyRole (u : CharacterUpdate) : Bool :=
  match u.role with
  | some r => !r.isEmpty
  | none => false

/-- `update as Character`: the entry pushed for a creating update (defaults are
never used under the creation guard). -/
def mkChar (u : CharacterUpdate) : Character :=
  { name := u.name.getD []
    role := u.role.getD []
    affinity := u.affinity.getD 0
    status := u.status
    description := u.description }

/-- `{...existing, ...update}`: the update's present fields override. -/
def mergeChar (c : Character) (u : CharacterUpdate) : Character :=
  { name := u.name.getD c.name
    role := u.role.getD c.role
    affinity := u.affinity.getD c.affinity
    status := match u.status with | some s => some s | none => c.status
    description := match u.description with | some d => some d | none => c.description }

/-- One step of `updates.forEach`: merge over the first entry with the same
name, else push a new entry when `name`, `role` are truthy and `affinity` is
defined, else leave the collection unchanged. -/
def applyUpdate : List Character → CharacterUpdate → List Character
  | [], u =>
    if truthyName u && truthyRole u && u.affinity.isSome then [mkChar u] else []
  | c :: cs, u =>
    if u.name == some c.name then mergeChar c u :: cs
    else c :: applyUpdate cs u

/-- `updateCharacters` of `App.tsx`: apply the partial updates in order. -/
def updateCharacters (chars : List Character) (updates : List CharacterUpdate) :
    List Character :=
  updates.foldl applyUpdate chars

/- ### Concrete instances used in counterexamples and witnesses -/

/-- A story fragment with plain one-sentence content and a single choice. -/
def exNodeA : StoryNode :=
  { id := strLit "a", chapterTitle := strLit "T", content := strLit "One."
    choices := [{ id := strLit "ca", text := strLit "go", tone := strLit "brave" }]
    characterUpdates := [], stats := { tension := 0, mystery := 0, romance := 0, hope := 0 }
    summary := [], backgroundImagePrompt := none }

/-- A second such fragment, with its own choice. -/
def exNodeB : StoryNode :=
  { id := strLit "b", chapterTitle := strLit "T", content := strLit "Two."
    choices := [{ id := strLit "cb", text := strLit "stay", tone := strLit "cautious" }]
    characterUpdates := [], stats := { tension := 0, mystery := 0, romance := 0, hope := 0 }
    summary := [], backgroundImagePrompt := none }

/-- The single page generated for `exNodeA` (its last-section end page). -/
def exPageA : BookPage :=
  { id := strLit "a-sec0-end", type := PageType.TEXT, content := strLit "\nOne."
    imagePrompt := none
    choices := some [{ id := strLit "ca", text := strLit "go", tone := strLit "brave" }]
    pageNumber := 1, chapterTitle := strLit "T", isChapterStart := some false }

/-- A fragment whose content holds a newline, `##` and a tab, but not the
four-character substring `"\n## "`. -/
def c6Node : StoryNode :=
  { id := strLit "n", chapterTitle := strLit "T", content := strLit "x\n##\ty"
    choices := [], characterUpdates := []
    stats := { tension := 0, mystery := 0, romance := 0, hope := 0 }
    summary := [], backgroundImagePrompt := none }

/-- A marker-free single-section fragment. -/
def c6WNode : StoryNode :=
  { id := strLit "w", chapterTitle := strLit "T", content := strLit "hello world"
    choices := [], characterUpdates := []
    stats := { tension := 0, mystery := 0, romance := 0, hope := 0 }
    summary := [], backgroundImagePrompt := none }

/-- A fragment with empty content and no illustration prompt. -/
def c7Node : StoryNode :=
  { id := strLit "e", chapterTitle := strLit "T", content := []
    choices := [], characterUpdates := []
    stats := { tension := 0, mystery := 0, romance := 0, hope := 0 }
    summary := [], backgroundImagePrompt := none }

/-- A fragment with whitespace-only content. -/
def c7WNode : StoryNode :=
  { id := strLit "f", chapterTitle := strLit "T", content := strLit "  "
    choices := [], characterUpdates := []
    stats := { tension := 0, mystery := 0, romance := 0, hope := 0 }
    summary := [], backgroundImagePrompt := none }

/-- A section body of 81 sentence-ending tokens (so that a new-chapter page
closes exactly at the reduced budget of 80). -/
def c2Section : ChapterSection :=
  { title := [], body := joinSpace (List.replicate 81 ['a', '.']), isNewChapter := true }

/-- A partial character update with no fields present. -/
def emptyUpdate : CharacterUpdate :=
  { name := none, role := none, affinity := none, status := none, description := none }

/- ### Basic lemmas about the string model -/

theorem consHead_ne_nil (x : Char) (l : List Str) : consHead x l ≠ [] := by
  cases l <;> simp [consHead]

theorem splitChar_ne_nil (c : Char) (s : Str) : splitChar c s ≠ [] := by
  cases s with
  | nil => simp [splitChar]
  | cons x xs =>
    simp only [splitChar]
    split
    · simp
    · exact consHead_ne_nil _ _

theorem mem_splitChar_not_mem (c : Char) (s : Str) :
    ∀ w ∈ splitChar c s, c ∉ w := by
  induction s with
  | nil =>
    intro w hw
    simp [splitChar] at hw
    simp [hw]
  | cons x xs ih =>
    intro w hw
    simp only [splitChar] at hw
    by_cases hx : x == c
    · simp [hx] at hw
      rcases hw with h | h
      · simp [h]
      · exact ih w h
    · simp [hx] at hw
      rcases hr : splitChar c xs with _ | ⟨w0, ws⟩
      · exact absurd hr (splitChar_ne_nil c xs)
      · rw [hr] at hw
        simp [consHead] at hw
        rcases hw with h | h
        · subst h
          intro hmem
          simp at hmem
          rcases hmem with h | h
          · rw [h] at hx
            simp at hx
          · have := ih w0 (by rw [hr]; simp)
            exact this h
        · exact ih w (by rw [hr]; simp [h])

theorem splitChar_no_sep (c : Char) (s : Str) (h : c ∉ s) :
    splitChar c s = [s] := by
  induction s with
  | nil => simp [splitChar]
  | cons x xs ih =>
    simp only [splitChar]
    have hx : ¬(x == c) = true := by
      simp only [beq_iff_eq]
      intro he
      exact h (by simp [he])
    simp only [hx, if_neg, Bool.false_eq_true, not_false_iff, if_false]
    rw [ih (fun hm => h (by simp [hm]))]
    simp [consHead]

theorem splitChar_append_cons (c : Char) (xs rest : Str) (h : c ∉ xs) :
    splitChar c (xs ++ c :: rest) = xs :: splitChar c rest := by
  induction xs with
  | nil => simp [splitChar]
  | cons x t ih =>
    have hx : ¬(x == c) = true := by
      simp only [beq_iff_eq]
      intro he
      exact h (by simp [he])
    simp only [List.cons_append, splitChar, hx, Bool.false_eq_true,
      not_false_iff, if_false, List.append_eq]
    rw [ih (fun hm => h (by simp [hm]))]
    simp [consHead]

theorem splitChar_joinSpace (ws : List Str) (hne : ws ≠ [])
    (h : ∀ w ∈ ws, ' ' ∉ w) :
    splitChar ' ' (joinSpace ws) = ws := by
  induction ws with
  | nil => exact absurd rfl hne
  | cons w t ih =>
    cases t with
    | nil =>
      simp only [joinSpace]
      exact splitChar_no_sep ' ' w (h w (by simp))
    | cons w2 t2 =>
      have hj : joinSpace (w :: w2 :: t2) = w ++ ' ' :: joinSpace (w2 :: t2) := rfl
      rw [hj, splitChar_append_cons ' ' w _ (h w (by simp))]
      rw [ih (by simp) (fun x hx => h x (by simp [hx]))]

/- ### Lemmas about the packing loop -/

theorem packWords_join (isNew : Bool) (ws : List Str) :
    ∀ (chunk : List Str) (isFirst : Bool),
      (packWords isNew ws chunk isFirst).1.flatten ++
        (packWords isNew ws chunk isFirst).2.1 = chunk ++ ws := by
  induction ws with
  | nil =>
    intro chunk isFirst
    simp [packWords]
  | cons w t ih =>
    intro chunk isFirst
    simp only [packWords]
    split
    · have h2 := ih [] false
      simp only [List.flatten_cons, List.append_assoc]
      rw [h2]
      simp
    · rw [ih (chunk ++ [w]) isFirst]
      simp

theorem packWords_closed_ne_nil (isNew : Bool) (ws : List Str) :
    ∀ (chunk : List Str) (isFirst : Bool) (cl : List Str),
      cl ∈ (packWords isNew ws chunk isFirst).1 → cl ≠ [] := by
  induction ws with
  | nil =>
    intro chunk isFirst cl h
    simp [packWords] at h
  | cons w t ih =>
    intro chunk isFirst cl h
    simp only [packWords] at h
    split at h
    · simp at h
      rcases h with h | h
      · subst h
        simp
      · exact ih [] false cl h
    · exact ih (chunk ++ [w]) isFirst cl h

theorem closesAtB_concat (L : Nat) (ch : List Str) (w : Str) :
    closesAtB L (ch ++ [w]) =
      (decide (L ≤ (ch ++ [w]).length) &&
        (endsSentence w || decide (L + 20 < (ch ++ [w]).length))) := by
  simp [closesAtB, List.getLast?_concat]

theorem pageLimit_false (isNew : Bool) : pageLimit false isNew = WORDS_PER_PAGE := by
  simp [pageLimit]

theorem packWords_invariant (isNew : Bool) (ws : List Str) :
    ∀ (chunk : List Str) (isFirst : Bool),
      (∀ i, i ≤ chunk.length → 0 < i →
        closesAtB (pageLimit isFirst isNew) (chunk.take i) = false) →
      ((packWords isNew ws chunk isFirst).1 = [] →
         (packWords isNew ws chunk isFirst).2.1 = chunk ++ ws ∧
         FinOkP (pageLimit isFirst isNew) (packWords isNew ws chunk isFirst).2.1) ∧
      (∀ c0 rest, (packWords isNew ws chunk isFirst).1 = c0 :: rest →
         ChunkOkP (pageLimit isFirst isNew) c0 ∧
         (∀ c ∈ rest, ChunkOkP WORDS_PER_PAGE c) ∧
         FinOkP WORDS_PER_PAGE (packWords isNew ws chunk isFirst).2.1) := by
  induction ws with
  | nil =>
    intro chunk isFirst Hc
    constructor
    · intro _
      refine ⟨by simp [packWords], ?_⟩
      intro i hi hpos
      exact Hc i (by simpa [packWords] using hi) hpos
    · intro c0 rest h
      simp [packWords] at h
  | cons w t ih =>
    intro chunk isFirst Hc
    have hclosesEq : closesAtB (pageLimit isFirst isNew) (chunk ++ [w]) =
        (decide (pageLimit isFirst isNew ≤ (chunk ++ [w]).length) &&
          (endsSentence w ||
            decide (pageLimit isFirst isNew + 20 < (chunk ++ [w]).length))) :=
      closesAtB_concat _ chunk w
    by_cases hcl : (decide (pageLimit isFirst isNew ≤ (chunk ++ [w]).length) &&
        (endsSentence w ||
          decide (pageLimit isFirst isNew + 20 < (chunk ++ [w]).length))) = true
    · -- the buffer closes after pushing w
      have hpk : packWords isNew (w :: t) chunk isFirst =
          ((chunk ++ [w]) :: (packWords isNew t [] false).1,
            (packWords isNew t [] false).2) := by
        simp only [packWords]
        rw [if_pos hcl]
      have ihr := ih [] false (by intro i hi hpos; simp at hi; omega)
      have hrest : (∀ c ∈ (packWords isNew t [] false).1,
            ChunkOkP WORDS_PER_PAGE c) ∧
          FinOkP WORDS_PER_PAGE (packWords isNew t [] false).2.1 := by
        rcases hr : (packWords isNew t [] false).1 with _ | ⟨c0r, restr⟩
        · refine ⟨by simp, ?_⟩
          have := (ihr.1 hr).2
          rwa [pageLimit_false] at this
        · have h2 := ihr.2 c0r restr hr
          rw [pageLimit_false] at h2
          refine ⟨?_, h2.2.2⟩
          intro c hc
          simp at hc
          rcases hc with h | h
          · subst h; exact h2.1
          · exact h2.2.1 c h
      constructor
      · intro habs
        rw [hpk] at habs
        simp at habs
      · intro c0 rest heq
        rw [hpk] at heq
        simp at heq
        rcases heq with ⟨h1, h2⟩
        subst h1
        refine ⟨⟨by rw [hclosesEq]; exact hcl, ?_⟩, ?_, ?_⟩
        · intro i hi hpos
          have hle : i ≤ chunk.length := by
            simp at hi
            omega
          rw [List.take_append_of_le_length hle]
          exact Hc i hle hpos
        · intro c hc
          rw [← h2] at hc
          exact hrest.1 c hc
        · rw [hpk]
          exact hrest.2
    · -- the buffer keeps accumulating
      have hpk : packWords isNew (w :: t) chunk isFirst =
          packWords isNew t (chunk ++ [w]) isFirst := by
        simp only [packWords]
        rw [if_neg hcl]
      have Hc2 : ∀ i, i ≤ (chunk ++ [w]).length → 0 < i →
          closesAtB (pageLimit isFirst isNew) ((chunk ++ [w]).take i) = false := by
        intro i hi hpos
        rcases Nat.lt_or_ge i (chunk.length + 1) with h | h
        · have hle : i ≤ chunk.length := by omega
          rw [List.take_append_of_le_length hle]
          exact Hc i hle hpos
        · have : i = (chunk ++ [w]).length := by
            simp at hi ⊢
            simp at h
            omega
          rw [this, List.take_length]
          rw [hclosesEq]
          simpa using hcl
      have hx : chunk ++ w :: t = (chunk ++ [w]) ++ t := by simp
      rw [hpk, hx]
      exact ih (chunk ++ [w]) isFirst Hc2

/- ### Counter and numbering invariants of the paginator -/

theorem closedPages_spec (node : StoryNode) (sIdx : Nat) (isNew : Bool) (title : Str) :
    ∀ (cs : List (List Str)) (c : Nat) (isF : Bool),
      (closedPages node sIdx isNew title cs c isF).2 =
          c + (closedPages node sIdx isNew title cs c isF).1.length ∧
      (closedPages node sIdx isNew title cs c isF).1.map (fun p => p.pageNumber) =
          List.range' c (closedPages node sIdx isNew title cs c isF).1.length := by
  intro cs
  induction cs with
  | nil =>
    intro c isF
    simp [closedPages]
  | cons ch chs ih =>
    intro c isF
    have h := ih (c + 1) false
    simp only [closedPages, List.length_cons, List.map_cons]
    refine ⟨by rw [h.1]; omega, ?_⟩
    rw [h.2, List.range'_succ]

theorem sectionPages_spec (node : StoryNode) (sIdx : Nat) (isLast : Bool)
    (sec : ChapterSection) (c : Nat) :
    (sectionPages node sIdx isLast sec c).2 =
        c + (sectionPages node sIdx isLast sec c).1.length ∧
    (sectionPages node sIdx isLast sec c).1.map (fun p => p.pageNumber) =
        List.range' c (sectionPages node sIdx isLast sec c).1.length := by
  have h := closedPages_spec node sIdx sec.isNewChapter sec.title
    (sectionChunks sec).1 c true
  simp only [sectionPages]
  split
  · simp only [List.length_append, List.length_cons, List.length_nil,
      List.map_append, List.map_cons, List.map_nil]
    refine ⟨by rw [h.1]; omega, ?_⟩
    rw [h.2, h.1, List.range'_concat]
    simp
  · exact h

theorem sectionsPagesList_spec (node : StoryNode) :
    ∀ (ss : List ChapterSection) (sIdx c : Nat),
      (sectionsPagesList node ss sIdx c).2 =
          c + (sectionsPagesList node ss sIdx c).1.length ∧
      (sectionsPagesList node ss sIdx c).1.map (fun p => p.pageNumber) =
          List.range' c (sectionsPagesList node ss sIdx c).1.length := by
  intro ss
  induction ss with
  | nil =>
    intro sIdx c
    simp [sectionsPagesList]
  | cons s t ih =>
    intro sIdx c
    have h1 := sectionPages_spec node sIdx t.isEmpty s c
    have h2 := ih (sIdx + 1) (sectionPages node sIdx t.isEmpty s c).2
    simp only [sectionsPagesList, List.length_append, List.map_append]
    refine ⟨by rw [h2.1, h1.1]; omega, ?_⟩
    rw [h1.2, h2.2, h1.1]
    have := List.range'_append c (sectionPages node sIdx t.isEmpty s c).1.length
      (sectionsPagesList node t (sIdx + 1)
        (c + (sectionPages node sIdx t.isEmpty s c).1.length)).1.length 1
    simp only [one_mul, Nat.mul_one] at this
    rw [this, Nat.add_comm]

theorem nodePages_spec (node : StoryNode) (i : Nat) (m : GameMode) (c : Nat) :
    (nodePages node i m c).2 = c + (nodePages node i m c).1.length ∧
    (nodePages node i m c).1.map (fun p => p.pageNumber) =
        List.range' c (nodePages node i m c).1.length := by
  simp only [nodePages]
  rcases node.backgroundImagePrompt with _ | p
  · simpa using sectionsPagesList_spec node (computeSections node) 0 c
  · simp only
    split
    · have h := sectionsPagesList_spec node (computeSections node) 0 (c + 1)
      simp only [List.length_append, List.length_cons, List.length_nil,
        List.map_append, List.map_cons, List.map_nil]
      refine ⟨by rw [h.1]; omega, ?_⟩
      rw [h.2]
      have h3 : (0 : Nat) + 1 + (sectionsPagesList node (computeSections node) 0 (c + 1)).1.length =
          (sectionsPagesList node (computeSections node) 0 (c + 1)).1.length + 1 := by omega
      rw [h3, List.range'_succ]
      simp
    · simpa using sectionsPagesList_spec node (computeSections node) 0 c

theorem historyPages_spec (m : GameMode) :
    ∀ (h : List StoryNode) (i c : Nat),
      (historyPages m h i c).2 = c + (historyPages m h i c).1.length ∧
      (historyPages m h i c).1.map (fun p => p.pageNumber) =
          List.range' c (historyPages m h i c).1.length := by
  intro h
  induction h with
  | nil =>
    intro i c
    simp [historyPages]
  | cons n t ih =>
    intro i c
    have h1 := nodePages_spec n i m c
    have h2 := ih (i + 1) (nodePages n i m c).2
    simp only [historyPages, List.length_append, List.map_append]
    refine ⟨by rw [h2.1, h1.1]; omega, ?_⟩
    rw [h1.2, h2.2, h1.1]
    have := List.range'_append c (nodePages n i m c).1.length
      (historyPages m t (i + 1) (c + (nodePages n i m c).1.length)).1.length 1
    simp only [one_mul, Nat.mul_one] at this
    rw [this, Nat.add_comm]

/-- The shape of `paginate`: either the generated pages already have even
length, or the blank filler page numbered one past them is appended. -/
theorem paginate_shape (m : GameMode) (h : List StoryNode) :
    (paginateCore m h).length % 2 = 0 ∧ paginate m h = paginateCore m h ∨
    (paginateCore m h).length % 2 = 1 ∧
      paginate m h = paginateCore m h ++ [fillerPage ((paginateCore m h).length + 1)] := by
  have hc := (historyPages_spec m h 0 1).1
  by_cases hpar : (historyPages m h 0 1).1.length % 2 = 0
  · left
    refine ⟨hpar, ?_⟩
    simp [paginate, paginateCore, hpar]
  · right
    have h1 : (historyPages m h 0 1).1.length % 2 = 1 := by omega
    refine ⟨h1, ?_⟩
    simp only [paginate, paginateCore, h1]
    rw [if_pos (by omega)]
    rw [hc]
    simp [Nat.add_comm]

/- ### Word preservation through the paginator -/

theorem sectionChunks_join (sec : ChapterSection) :
    (sectionChunks sec).1.flatten ++ (sectionChunks sec).2 =
      splitChar ' ' sec.body := by
  simpa [sectionChunks] using
    packWords_join sec.isNewChapter (splitChar ' ' sec.body) [] true

theorem sectionChunks_tok (sec : ChapterSection) :
    ∀ tok : Str,
      tok ∈ (sectionChunks sec).1.flatten ∨ tok ∈ (sectionChunks sec).2 →
      ' ' ∉ tok := by
  intro tok h
  have hmem : tok ∈ splitChar ' ' sec.body := by
    rw [← sectionChunks_join sec]
    simp only [List.mem_append]
    exact h
  exact mem_splitChar_not_mem ' ' sec.body tok hmem

theorem sectionChunks_closed_ne_nil (sec : ChapterSection) :
    ∀ cl ∈ (sectionChunks sec).1, cl ≠ [] := by
  intro cl h
  exact packWords_closed_ne_nil sec.isNewChapter (splitChar ' ' sec.body) [] true cl
    (by simpa [sectionChunks] using h)

theorem sectionChunks_roundtrip (sec : ChapterSection) :
    ∀ cl ∈ (sectionChunks sec).1, splitChar ' ' (joinSpace cl) = cl := by
  intro cl h
  refine splitChar_joinSpace cl (sectionChunks_closed_ne_nil sec cl h) ?_
  intro w hw
  refine sectionChunks_tok sec w (Or.inl ?_)
  exact List.mem_flatten.2 ⟨cl, h, hw⟩

theorem closedPages_contents (node : StoryNode) (sIdx : Nat) (isNew : Bool)
    (title : Str) :
    ∀ (cs : List (List Str)) (c : Nat) (isF : Bool),
      (closedPages node sIdx isNew title cs c isF).1.map (fun p => p.content) =
        cs.map joinSpace := by
  intro cs
  induction cs with
  | nil =>
    intro c isF
    simp [closedPages]
  | cons ch chs ih =>
    intro c isF
    simp only [closedPages, List.map_cons]
    rw [ih (c + 1) false]

theorem sectionPages_words (node : StoryNode) (sIdx : Nat) (isLast : Bool)
    (sec : ChapterSection) (c : Nat) :
    ((sectionPages node sIdx isLast sec c).1.map
        (fun p => splitChar ' ' p.content)).flatten =
      splitChar ' ' sec.body := by
  have hjoin := sectionChunks_join sec
  have hmapc : ∀ (cc : Nat) (isF : Bool),
      (closedPages node sIdx sec.isNewChapter sec.title
          (sectionChunks sec).1 cc isF).1.map (fun p => splitChar ' ' p.content) =
        (sectionChunks sec).1 := by
    intro cc isF
    have h1 : (closedPages node sIdx sec.isNewChapter sec.title
        (sectionChunks sec).1 cc isF).1.map (fun p => splitChar ' ' p.content) =
        ((closedPages node sIdx sec.isNewChapter sec.title
          (sectionChunks sec).1 cc isF).1.map (fun p => p.content)).map
            (splitChar ' ') := by
      rw [List.map_map]
      rfl
    rw [h1, closedPages_contents, List.map_map]
    calc ((sectionChunks sec).1.map (fun cl => splitChar ' ' (joinSpace cl))) =
        (sectionChunks sec).1.map id := by
          apply List.map_congr_left
          intro cl hcl
          exact sectionChunks_roundtrip sec cl hcl
      _ = (sectionChunks sec).1 := List.map_id _
  simp only [sectionPages]
  split
  · next hcond =>
    simp only [List.map_append, List.map_cons, List.map_nil, List.flatten_append]
    rw [hmapc]
    have hfin : splitChar ' ' (joinSpace (sectionChunks sec).2) =
        (sectionChunks sec).2 := by
      rcases hn : (sectionChunks sec).2 with _ | ⟨w0, ws0⟩
      · -- the end page is emitted with an empty leftover buffer: then no chunk
        -- closed either, contradicting that the token list is never empty
        exfalso
        rcases hcl : (sectionChunks sec).1 with _ | ⟨c0, cs0⟩
        · have := sectionChunks_join sec
          rw [hn, hcl] at this
          simp at this
          exact splitChar_ne_nil ' ' sec.body this
        · simp only [Bool.or_eq_true, Bool.not_eq_true'] at hcond
          rcases hcond with h | h
          · rw [hn] at h
            simp at h
          · rw [hcl] at h
            simp at h
      · rw [← hn]
        refine splitChar_joinSpace _ (by rw [hn]; simp) ?_
        intro w hw
        exact sectionChunks_tok sec w (Or.inr hw)
    rw [hfin]
    simpa using hjoin
  · rw [hmapc]
    next hcond =>
    -- no end page: the leftover buffer is empty
    simp only [Bool.or_eq_true, not_or, Bool.not_eq_true, Bool.not_eq_false] at hcond
    have hfin : (sectionChunks sec).2 = [] := by
      simpa using hcond.1
    rw [hfin] at hjoin
    simpa using hjoin

theorem closedPages_text (node : StoryNode) (sIdx : Nat) (isNew : Bool)
    (title : Str) :
    ∀ (cs : List (List Str)) (c : Nat) (isF : Bool),
      ∀ p ∈ (closedPages node sIdx isNew title cs c isF).1,
        p.type = PageType.TEXT := by
  intro cs
  induction cs with
  | nil =>
    intro c isF p hp
    simp [closedPages] at hp
  | cons ch chs ih =>
    intro c isF p hp
    simp only [closedPages, List.mem_cons] at hp
    rcases hp with h | h
    · rw [h]
    · exact ih (c + 1) false p h

theorem sectionPages_text (node : StoryNode) (sIdx : Nat) (isLast : Bool)
    (sec : ChapterSection) (c : Nat) :
    ∀ p ∈ (sectionPages node sIdx isLast sec c).1, p.type = PageType.TEXT := by
  intro p hp
  simp only [sectionPages] at hp
  split at hp
  · simp only [List.mem_append, List.mem_cons, List.not_mem_nil, or_false] at hp
    rcases hp with h | h
    · exact closedPages_text node sIdx sec.isNewChapter sec.title
        (sectionChunks sec).1 c true p h
    · rw [h]
  · exact closedPages_text node sIdx sec.isNewChapter sec.title
      (sectionChunks sec).1 c true p hp

theorem sectionsPagesList_text (node : StoryNode) :
    ∀ (ss : List ChapterSection) (sIdx c : Nat),
      ∀ p ∈ (sectionsPagesList node ss sIdx c).1, p.type = PageType.TEXT := by
  intro ss
  induction ss with
  | nil =>
    intro sIdx c p hp
    simp [sectionsPagesList] at hp
  | cons s t ih =>
    intro sIdx c p hp
    simp only [sectionsPagesList, List.mem_append] at hp
    rcases hp with h | h
    · exact sectionPages_text node sIdx t.isEmpty s c p h
    · exact ih (sIdx + 1) _ p h

theorem sectionsPagesList_words (node : StoryNode) :
    ∀ (ss : List ChapterSection) (sIdx c : Nat),
      ((sectionsPagesList node ss sIdx c).1.map
          (fun p => splitChar ' ' p.content)).flatten =
        (ss.map (fun s => splitChar ' ' s.body)).flatten := by
  intro ss
  induction ss with
  | nil =>
    intro sIdx c
    simp [sectionsPagesList]
  | cons s t ih =>
    intro sIdx c
    simp only [sectionsPagesList, List.map_append, List.flatten_append,
      List.map_cons, List.flatten_cons]
    rw [sectionPages_words, ih]

theorem nodePages_filter_text (node : StoryNode) (i : Nat) (m : GameMode) (c : Nat) :
    ∃ c0 : Nat,
      (nodePages node i m c).1.filter isTextPage =
        (sectionsPagesList node (computeSections node) 0 c0).1 := by
  have htxt : ∀ c0 : Nat,
      (sectionsPagesList node (computeSections node) 0 c0).1.filter isTextPage =
        (sectionsPagesList node (computeSections node) 0 c0).1 := by
    intro c0
    apply List.filter_eq_self.2
    intro p hp
    have := sectionsPagesList_text node (computeSections node) 0 c0 p hp
    simp [isTextPage, this]
  simp only [nodePages]
  rcases node.backgroundImagePrompt with _ | p
  · exact ⟨c, by simpa using htxt c⟩
  · simp only
    split
    · refine ⟨c + 1, ?_⟩
      rw [List.filter_append]
      rw [htxt (c + 1)]
      simp [isTextPage]
    · exact ⟨c, by simpa using htxt c⟩

theorem nodePages_words (node : StoryNode) (i : Nat) (m : GameMode) (c : Nat) :
    (((nodePages node i m c).1.filter isTextPage).map
        (fun p => splitChar ' ' p.content)).flatten =
      ((computeSections node).map (fun s => splitChar ' ' s.body)).flatten := by
  obtain ⟨c0, hc0⟩ := nodePages_filter_text node i m c
  rw [hc0, sectionsPagesList_words]

/- ### Placement of choices -/

theorem closedPages_choices (node : StoryNode) (sIdx : Nat) (isNew : Bool)
    (title : Str) :
    ∀ (cs : List (List Str)) (c : Nat) (isF : Bool),
      ∀ p ∈ (closedPages node sIdx isNew title cs c isF).1, p.choices = none := by
  intro cs
  induction cs with
  | nil =>
    intro c isF p hp
    simp [closedPages] at hp
  | cons ch chs ih =>
    intro c isF p hp
    simp only [closedPages, List.mem_cons] at hp
    rcases hp with h | h
    · rw [h]
    · exact ih (c + 1) false p h

theorem sectionPages_choices (node : StoryNode) (sIdx : Nat) (isLast : Bool)
    (sec : ChapterSection) (c : Nat) :
    (∀ p ∈ (sectionPages node sIdx isLast sec c).1.dropLast, p.choices = none) ∧
    (∀ p ∈ (sectionPages node sIdx isLast sec c).1, p.choices ≠ none →
      isLast = true ∧ p.choices = some node.choices ∧
      (sectionPages node sIdx isLast sec c).1.getLast? = some p) := by
  have hcl := closedPages_choices node sIdx sec.isNewChapter sec.title
    (sectionChunks sec).1 c true
  simp only [sectionPages]
  split
  · constructor
    · intro p hp
      rw [List.dropLast_concat] at hp
      exact hcl p hp
    · intro p hp hne
      simp only [List.mem_append, List.mem_cons, List.not_mem_nil, or_false] at hp
      rcases hp with h | h
      · exact absurd (hcl p h) hne
      · subst h
        cases isLast
        · simp at hne
        · exact ⟨rfl, by simp, by rw [List.getLast?_concat]⟩
  · constructor
    · intro p hp
      exact hcl p (List.dropLast_subset _ hp)
    · intro p hp hne
      exact absurd (hcl p hp) hne

theorem sectionsPagesList_choices (node : StoryNode) :
    ∀ (ss : List ChapterSection) (sIdx c : Nat),
      (∀ p ∈ (sectionsPagesList node ss sIdx c).1.dropLast, p.choices = none) ∧
      (∀ p ∈ (sectionsPagesList node ss sIdx c).1, p.choices ≠ none →
        p.choices = some node.choices ∧
        (sectionsPagesList node ss sIdx c).1.getLast? = some p) := by
  intro ss
  induction ss with
  | nil =>
    intro sIdx c
    simp [sectionsPagesList]
  | cons s t ih =>
    intro sIdx c
    simp only [sectionsPagesList]
    rcases ht : (sectionsPagesList node t (sIdx + 1)
        (sectionPages node sIdx t.isEmpty s c).2).1 with _ | ⟨q, qs⟩
    · -- the tail sections generated no pages
      have h1 := sectionPages_choices node sIdx t.isEmpty s c
      simp only [List.append_nil]
      constructor
      · exact h1.1
      · intro p hp hne
        have h3 := h1.2 p hp hne
        exact ⟨h3.2.1, h3.2.2⟩
    · have htne : t.isEmpty = false := by
        rcases htt : t with _ | _
        · rw [htt] at ht
          simp [sectionsPagesList] at ht
        · simp [htt]
      rw [htne] at ht ⊢
      have h1 := sectionPages_choices node sIdx false s c
      have ih2 := ih (sIdx + 1) (sectionPages node sIdx false s c).2
      rw [ht] at ih2
      have hall1 : ∀ p ∈ (sectionPages node sIdx false s c).1, p.choices = none := by
        intro p hp
        by_contra hne
        have := (h1.2 p hp hne).1
        simp at this
      have hdl : ((sectionPages node sIdx false s c).1 ++ q :: qs).dropLast =
          (sectionPages node sIdx false s c).1 ++ (q :: qs).dropLast :=
        List.dropLast_append_of_ne_nil _ (by simp)
      have hgl : ((sectionPages node sIdx false s c).1 ++ q :: qs).getLast? =
          (q :: qs).getLast? :=
        List.getLast?_append_of_ne_nil _ (by simp)
      rw [hdl, hgl]
      constructor
      · intro p hp
        simp only [List.mem_append] at hp
        rcases hp with h | h
        · exact hall1 p h
        · exact ih2.1 p h
      · intro p hp hne
        simp only [List.mem_append] at hp
        rcases hp with h | h
        · exact absurd (hall1 p h) hne
        · have h4 := ih2.2 p h hne
          exact ⟨h4.1, h4.2⟩

theorem nodePages_choices (node : StoryNode) (i : Nat) (m : GameMode) (c : Nat) :
    (∀ p ∈ (nodePages node i m c).1.dropLast, p.choices = none) ∧
    (∀ p ∈ (nodePages node i m c).1, p.choices ≠ none →
      p.choices = some node.choices ∧
      (nodePages node i m c).1.getLast? = some p) := by
  have hbuild : ∀ (vis : List BookPage) (c0 : Nat),
      (∀ p ∈ vis, p.choices = none) →
      ((∀ p ∈ (vis ++ (sectionsPagesList node (computeSections node) 0 c0).1).dropLast,
          p.choices = none) ∧
       (∀ p ∈ vis ++ (sectionsPagesList node (computeSections node) 0 c0).1,
          p.choices ≠ none →
          p.choices = some node.choices ∧
          (vis ++ (sectionsPagesList node (computeSections node) 0 c0).1).getLast? =
            some p)) := by
    intro vis c0 hvis
    rcases ht : (sectionsPagesList node (computeSections node) 0 c0).1 with _ | ⟨q, qs⟩
    · simp only [List.append_nil]
      constructor
      · intro p hp
        exact hvis p (List.dropLast_subset _ hp)
      · intro p hp hne
        exact absurd (hvis p hp) hne
    · have h2 := sectionsPagesList_choices node (computeSections node) 0 c0
      rw [ht] at h2
      have hdl : (vis ++ q :: qs).dropLast = vis ++ (q :: qs).dropLast :=
        List.dropLast_append_of_ne_nil _ (by simp)
      have hgl : (vis ++ q :: qs).getLast? = (q :: qs).getLast? :=
        List.getLast?_append_of_ne_nil _ (by simp)
      rw [hdl, hgl]
      constructor
      · intro p hp
        simp only [List.mem_append] at hp
        rcases hp with h | h
        · exact hvis p h
        · exact h2.1 p h
      · intro p hp hne
        simp only [List.mem_append] at hp
        rcases hp with h | h
        · exact absurd (hvis p h) hne
        · have h4 := h2.2 p h hne
          exact ⟨h4.1, h4.2⟩
  simp only [nodePages]
  rcases node.backgroundImagePrompt with _ | p
  · simpa using hbuild [] c (by simp)
  · simp only
    split
    · exact hbuild _ (c + 1) (by intro q hq; simp at hq; rw [hq])
    · simpa using hbuild [] c (by simp)

/- ### Lemmas about the chapter splitter -/

theorem splitChaptersF_no_marker :
    ∀ (fuel : Nat) (s : Str), hasMarkerB s = false → splitChaptersF fuel s = [s] := by
  intro fuel
  induction fuel with
  | zero =>
    intro s _
    rfl
  | succ n ih =>
    intro s hs
    cases s with
    | nil => rfl
    | cons x xs =>
      simp only [hasMarkerB, Bool.or_eq_false_iff] at hs
      simp only [splitChaptersF, hs.1, Bool.false_eq_true, if_false]
      rw [ih xs hs.2]
      simp [consHead]

theorem splitChapters_no_marker (s : Str) (h : hasMarkerB s = false) :
    splitChapters s = [s] :=
  splitChaptersF_no_marker s.length s h

theorem splitChapters_cons_nl (content : Str)
    (h : isMarkerStart ('\n' :: content) = false) :
    splitChapters ('\n' :: content) = consHead '\n' (splitChapters content) := by
  simp only [splitChapters, List.length_cons, splitChaptersF, h,
    Bool.false_eq_true, if_false]

theorem startsWithHH_trimS (r : Str) :
    startsWithHH (trimS ('#' :: '#' :: r)) = true := by
  have hh : isWs '#' = false := by decide
  have hfront : List.dropWhile isWs ('#' :: '#' :: r) = '#' :: '#' :: r := by
    simp [List.dropWhile_cons, hh]
  have hrev : ('#' :: '#' :: r).reverse = r.reverse ++ ['#', '#'] := by
    simp
  simp only [trimS, hfront, hrev, List.dropWhile_append]
  split
  · simp [List.dropWhile_cons, hh, startsWithHH]
  · simp only [List.reverse_append]
    rfl

theorem isMarkerStart_nl_false (content : Str)
    (h : startsWithHH (trimS content) = false) :
    isMarkerStart ('\n' :: content) = false := by
  rcases content with _ | ⟨a, content⟩
  · rfl
  rcases content with _ | ⟨b, content⟩
  · rfl
  rcases content with _ | ⟨c, r⟩
  · rfl
  by_contra hT
  simp only [Bool.not_eq_false, isMarkerStart, Bool.and_eq_true, beq_iff_eq] at hT
  obtain ⟨⟨⟨-, ha⟩, hb⟩, -⟩ := hT
  subst ha
  subst hb
  rw [startsWithHH_trimS] at h
  simp at h

theorem trimS_cons_ws (x : Char) (s : Str) (h : isWs x = true) :
    trimS (x :: s) = trimS s := by
  simp [trimS, List.dropWhile_cons, h]

theorem allWs_of_trimS_nil (s : Str) (h : trimS s = []) :
    ∀ x ∈ s, isWs x = true := by
  intro x hx
  have h1 : List.dropWhile isWs ((s.dropWhile isWs).reverse) = [] := by
    have := congrArg List.reverse h
    simpa [trimS] using this
  have h2 : ∀ y ∈ (s.dropWhile isWs).reverse, isWs y = true :=
    List.dropWhile_eq_nil_iff.1 h1
  have h3 : ∀ y ∈ s.dropWhile isWs, isWs y = true := by
    intro y hy
    exact h2 y (List.mem_reverse.2 hy)
  have h4 : x ∈ s.takeWhile isWs ++ s.dropWhile isWs := by
    rw [List.takeWhile_append_dropWhile]
    exact hx
  rcases List.mem_append.1 h4 with h5 | h5
  · exact List.mem_takeWhile_imp h5
  · exact h3 x h5

theorem hasMarkerB_allWs (s : Str) (h : ∀ x ∈ s, isWs x = true) :
    hasMarkerB s = false := by
  induction s with
  | nil => rfl
  | cons x xs ih =>
    simp only [hasMarkerB, Bool.or_eq_false_iff]
    constructor
    · rcases xs with _ | ⟨b, _ | ⟨c, _ | ⟨d, r⟩⟩⟩
      · rfl
      · rfl
      · rfl
      · by_contra hT
        simp only [Bool.not_eq_false, isMarkerStart, Bool.and_eq_true,
          beq_iff_eq] at hT
        obtain ⟨⟨⟨-, hb⟩, -⟩, -⟩ := hT
        have := h b (by simp)
        rw [hb] at this
        simp [isWs] at this
    · exact ih (fun x hx => h x (by simp [hx]))

/- ### Appending a fragment to the history -/

theorem historyPages_append (m : GameMode) :
    ∀ (h t : List StoryNode) (i c : Nat),
      (historyPages m (h ++ t) i c).1 =
          (historyPages m h i c).1 ++
            (historyPages m t (i + h.length) (historyPages m h i c).2).1 ∧
      (historyPages m (h ++ t) i c).2 =
          (historyPages m t (i + h.length) (historyPages m h i c).2).2 := by
  intro h
  induction h with
  | nil =>
    intro t i c
    simp [historyPages]
  | cons n hs ih =>
    intro t i c
    have h1 := ih t (i + 1) (nodePages n i m c).2
    simp only [List.cons_append, historyPages, List.length_cons, List.append_eq]
    constructor
    · rw [h1.1, List.append_assoc]
      have : i + 1 + hs.length = i + (hs.length + 1) := by omega
      rw [this]
    · rw [h1.2]
      have : i + 1 + hs.length = i + (hs.length + 1) := by omega
      rw [this]

/- ### Navigator iteration lemmas -/

theorem advance_iterate (pc i : Int) (_hi0 : 0 ≤ i) (hi2 : i ≤ pc - 2)
    (hie : i % 2 = 0) (hpe : pc % 2 = 0) :
    ∀ k : Nat, (advance pc)^[k] i = min (i + 2 * k) (pc - 2) := by
  intro k
  induction k with
  | zero =>
    simp [min_eq_left hi2]
  | succ n ih =>
    rw [Function.iterate_succ_apply', ih]
    rcases le_or_lt (i + 2 * (n : Int)) (pc - 2) with h | h
    · rw [min_eq_left h]
      simp only [advance]
      split
      · next hlt =>
        rw [min_eq_left (by push_cast; omega)]
        push_cast
        ring
      · next hge =>
        rw [min_eq_right (by push_cast; omega)]
        omega
    · rw [min_eq_right (by omega)]
      simp only [advance]
      rw [if_neg (by omega)]
      rw [min_eq_right (by push_cast; omega)]

theorem retreat_iterate (i : Int) (hi0 : 0 ≤ i) (hie : i % 2 = 0) :
    ∀ k : Nat, retreat^[k] i = max (i - 2 * k) 0 := by
  intro k
  induction k with
  | zero =>
    simp [max_eq_left hi0]
  | succ n ih =>
    rw [Function.iterate_succ_apply', ih]
    rcases le_or_lt 0 (i - 2 * (n : Int)) with h | h
    · rw [max_eq_left h]
      simp only [retreat]
      split
      · next hlt =>
        rw [max_eq_left (by push_cast; omega)]
        push_cast
        ring
      · next hge =>
        rw [max_eq_right (by push_cast; omega)]
        omega
    · rw [max_eq_right (by omega)]
      simp only [retreat]
      rw [if_neg (by omega)]
      rw [max_eq_right (by push_cast; omega)]

/- ### Character merge lemmas -/

theorem applyUpdate_no_match (u : CharacterUpdate) :
    ∀ cs : List Character, (∀ ch ∈ cs, u.name ≠ some ch.name) →
      applyUpdate cs u =
        if truthyName u && truthyRole u && u.affinity.isSome
        then cs ++ [mkChar u] else cs := by
  intro cs
  induction cs with
  | nil =>
    intro _
    simp [applyUpdate]
  | cons c cs ih =>
    intro h
    have hc : ¬(u.name == some c.name) = true := by
      simp only [beq_iff_eq]
      exact h c (by simp)
    simp only [applyUpdate, hc, Bool.false_eq_true, not_false_iff, if_false]
    rw [ih (fun ch hch => h ch (by simp [hch]))]
    split
    · simp
    · rfl

theorem applyUpdate_match (u : CharacterUpdate) :
    ∀ (pre : List Character) (c : Character) (post : List Character),
      (∀ ch ∈ pre, u.name ≠ some ch.name) → u.name = some c.name →
      applyUpdate (pre ++ c :: post) u = pre ++ mergeChar c u :: post := by
  intro pre
  induction pre with
  | nil =>
    intro c post _ hm
    simp [applyUpdate, hm]
  | cons p ps ih =>
    intro c post h hm
    have hp : ¬(u.name == some p.name) = true := by
      simp only [beq_iff_eq]
      exact h p (by simp)
    simp only [List.cons_append, applyUpdate, hp, Bool.false_eq_true,
      not_false_iff, if_false, List.append_eq]
    rw [ih c post (fun ch hch => h ch (by simp [hch])) hm]

/- ### Remaining bridge lemmas -/

theorem chunkLimit_zero (b : Bool) : chunkLimit b 0 = pageLimit true b := by
  cases b <;> rfl

theorem chunkLimit_pos (b : Bool) (j : Nat) : chunkLimit b (j + 1) = WORDS_PER_PAGE := by
  cases b <;> rfl

theorem countP_le_one_of_dropLast (q : BookPage → Bool) :
    ∀ l : List BookPage, (∀ x ∈ l.dropLast, q x = false) → l.countP q ≤ 1 := by
  intro l
  induction l with
  | nil =>
    intro _
    simp
  | cons x xs ih =>
    intro h
    rcases hxs : xs with _ | ⟨y, ys⟩
    · simpa using @List.countP_le_length BookPage q [x]
    · subst hxs
      have hdl : (x :: y :: ys).dropLast = x :: (y :: ys).dropLast := rfl
      have hx : q x = false := by
        apply h
        rw [hdl]
        simp
      rw [List.countP_cons, hx]
      simp only [Bool.false_eq_true, if_false, Nat.add_zero]
      apply ih
      intro z hz
      apply h
      rw [hdl]
      exact List.mem_cons_of_mem x hz

/- ### The claims -/

/-- Claim C1 (no word loss): for every fragment processed by the paginator at
any position, mode and counter, concatenating the token lists of the text
pages produced from it, in page order, equals the concatenation of the token
lists of its section bodies; and the paginated output is the generated pages
possibly followed by one filler page, whose content is empty. -/
theorem c1_no_word_loss :
    (∀ (node : StoryNode) (i : Nat) (m : GameMode) (c : Nat),
      (((nodePages node i m c).1.filter isTextPage).map
          (fun p => splitChar ' ' p.content)).flatten =
        ((computeSections node).map (fun s => splitChar ' ' s.body)).flatten) ∧
    (∀ (m : GameMode) (h : List StoryNode),
      paginate m h = paginateCore m h ∨
        (paginate m h = paginateCore m h ++
            [fillerPage ((paginateCore m h).length + 1)] ∧
          (fillerPage ((paginateCore m h).length + 1)).content = [])) := by
  constructor
  · exact nodePages_words
  · intro m h
    rcases paginate_shape m h with ⟨_, he⟩ | ⟨_, he⟩
    · exact Or.inl he
    · exact Or.inr ⟨he, rfl⟩

/-- Claim C2 (greedy packing rule): the chunks a section's body is packed into
partition its tokens in order; every closed chunk first satisfies the closing
rule (budget reached, and sentence-final last token or more than 20 tokens of
overrun) exactly at its own length, under the budget `W - 50` for the first
chunk of a new-chapter section and `W` otherwise; and the leftover buffer
never satisfied the closing rule. -/
theorem c2_greedy_packing (sec : ChapterSection) :
    (sectionChunks sec).1.flatten ++ (sectionChunks sec).2 = splitChar ' ' sec.body ∧
    (∀ j, j < (sectionChunks sec).1.length →
      ChunkOkP (chunkLimit sec.isNewChapter j) ((sectionChunks sec).1.getD j [])) ∧
    FinOkP (chunkLimit sec.isNewChapter (sectionChunks sec).1.length)
      (sectionChunks sec).2 := by
  refine ⟨sectionChunks_join sec, ?_, ?_⟩
  all_goals
    have hinv := packWords_invariant sec.isNewChapter (splitChar ' ' sec.body) [] true
      (by intro i hi hpos; simp at hi; omega)
  · intro j hj
    rcases hcl : (sectionChunks sec).1 with _ | ⟨c0, rest⟩
    · rw [hcl] at hj
      simp at hj
    · have hcl2 : (packWords sec.isNewChapter (splitChar ' ' sec.body) [] true).1 =
          c0 :: rest := hcl
      have h2 := hinv.2 c0 rest hcl2
      rcases j with _ | k
      · rw [chunkLimit_zero]
        simpa using h2.1
      · rw [chunkLimit_pos]
        rw [hcl] at hj
        simp only [List.length_cons] at hj
        have hk : k < rest.length := by omega
        have hmem : rest.getD k [] ∈ rest := by
          rw [List.getD_eq_getElem rest [] hk]
          exact List.getElem_mem hk
        have := h2.2.1 (rest.getD k []) hmem
        simpa [List.getD_cons_succ] using this
  · rcases hcl : (sectionChunks sec).1 with _ | ⟨c0, rest⟩
    · have hcl2 : (packWords sec.isNewChapter (splitChar ' ' sec.body) [] true).1 = [] := hcl
      have h1 := hinv.1 hcl2
      simp only [List.length_nil]
      rw [chunkLimit_zero]
      exact h1.2
    · have hcl2 : (packWords sec.isNewChapter (splitChar ' ' sec.body) [] true).1 =
          c0 :: rest := hcl
      have h2 := hinv.2 c0 rest hcl2
      simp only [List.length_cons]
      rw [chunkLimit_pos]
      exact h2.2.2

/-- Witness for C2 at a concrete new-chapter section of 81 sentence-ending
tokens: the first chunk exists and satisfies the greedy closing
characterization at the reduced budget. -/
theorem c2_greedy_packing_witness :
    0 < (sectionChunks c2Section).1.length ∧
    ChunkOkP (chunkLimit c2Section.isNewChapter 0) ((sectionChunks c2Section).1.getD 0 []) := by
  constructor
  · decide
  · exact (c2_greedy_packing c2Section).2.1 0 (by decide)

/-- Claim C3 (evenness): the paginated output always has even length, and when
the generated pages are odd in number exactly one blank filler page carrying
the next page number is appended at the end. -/
theorem c3_evenness :
    ∀ (m : GameMode) (h : List StoryNode),
      (paginate m h).length % 2 = 0 ∧
      ((paginateCore m h).length % 2 = 1 →
        paginate m h = paginateCore m h ++
          [fillerPage ((paginateCore m h).length + 1)]) := by
  intro m h
  rcases paginate_shape m h with ⟨hp, he⟩ | ⟨hp, he⟩
  · refine ⟨by rw [he]; exact hp, ?_⟩
    intro hodd
    omega
  · refine ⟨?_, fun _ => he⟩
    rw [he]
    simp only [List.length_append, List.length_cons, List.length_nil]
    omega

/-- Witness for C3 at a one-page history: the generated page count is odd and
the filler page numbered 2 is appended. -/
theorem c3_evenness_witness :
    (paginateCore GameMode.INTERACTIVE [exNodeA]).length % 2 = 1 ∧
    paginate GameMode.INTERACTIVE [exNodeA] =
      paginateCore GameMode.INTERACTIVE [exNodeA] ++
        [fillerPage ((paginateCore GameMode.INTERACTIVE [exNodeA]).length + 1)] :=
  ⟨by decide, (c3_evenness GameMode.INTERACTIVE [exNodeA]).2 (by decide)⟩

/-- Claim C4 (monotonic numbering): for every mode and history, the page
numbers of the paginated output are exactly 1, 2, 3, ... in output order. -/
theorem c4_monotonic_numbering :
    ∀ (m : GameMode) (h : List StoryNode),
      (paginate m h).map (fun p => p.pageNumber) =
        List.range' 1 (paginate m h).length := by
  intro m h
  have hs := historyPages_spec m h 0 1
  rcases paginate_shape m h with ⟨_, he⟩ | ⟨_, he⟩
  · rw [he]
    simpa [paginateCore] using hs.2
  · rw [he]
    simp only [List.map_append, List.map_cons, List.map_nil, List.length_append,
      List.length_cons, List.length_nil]
    have h1 : (paginateCore m h).map (fun p => p.pageNumber) =
        List.range' 1 (paginateCore m h).length := by
      simpa [paginateCore] using hs.2
    rw [h1]
    have h2 : (paginateCore m h).length + 0 + 1 =
        (paginateCore m h).length + 1 := by omega
    rw [h2, List.range'_concat]
    simp [fillerPage, Nat.add_comm]

/-- Counterexample to claim C5 as stated: in a two-fragment history whose
last fragment has a non-empty choice list, two pages of the paginated output
carry non-empty choices (the source attaches each fragment's choices to the
end page of that fragment's last section, not only for the most recent
fragment). -/
theorem c5_counterexample :
    exNodeB.choices ≠ [] ∧
    (paginate GameMode.INTERACTIVE [exNodeA, exNodeB]).countP carriesChoices = 2 := by
  constructor
  · decide
  · decide

/-- Claim C5 amended: for every fragment processed by the paginator, at most
one of its pages has choices attached; any page carrying choices carries
exactly that fragment's (non-empty) choice list and is the final page
produced from the fragment.  (The original claim's restriction to the most
recent fragment in the history does not hold on the code.) -/
theorem c5_choice_placement_amended :
    ∀ (node : StoryNode) (i : Nat) (m : GameMode) (c : Nat),
      (nodePages node i m c).1.countP carriesChoices ≤ 1 ∧
      (∀ p ∈ (nodePages node i m c).1, carriesChoices p = true →
        p.choices = some node.choices ∧ node.choices ≠ [] ∧
        (nodePages node i m c).1.getLast? = some p) := by
  intro node i m c
  have h := nodePages_choices node i m c
  constructor
  · apply countP_le_one_of_dropLast
    intro x hx
    have := h.1 x hx
    simp [carriesChoices, this]
  · intro p hp hc
    have hne : p.choices ≠ none := by
      intro h0
      rw [carriesChoices, h0] at hc
      exact Bool.false_ne_true hc
    have h2 := h.2 p hp hne
    refine ⟨h2.1, ?_, h2.2⟩
    rw [carriesChoices, h2.1] at hc
    simp only [Bool.not_eq_true'] at hc
    intro h3
    rw [h3] at hc
    simp at hc

/-- Witness for the amended C5: the single page of a concrete fragment
carries its choices and is the fragment's last page. -/
theorem c5_choice_placement_witness :
    (exPageA ∈ (nodePages exNodeA 0 GameMode.INTERACTIVE 1).1 ∧
      carriesChoices exPageA = true) ∧
    exPageA.choices = some exNodeA.choices ∧
    (nodePages exNodeA 0 GameMode.INTERACTIVE 1).1.getLast? = some exPageA := by
  have h := (c5_choice_placement_amended exNodeA 0 GameMode.INTERACTIVE 1).2
    exPageA (by decide) (by decide)
  exact ⟨⟨by decide, by decide⟩, h.1, h.2.2⟩

/-- Counterexample to claim C6 as stated: a fragment whose content contains no
literal `"\n## "` substring, is non-whitespace, and does not start with `##`,
yet the splitter produces two sections (the split pattern accepts any
whitespace after `##`, here a tab). -/
theorem c6_counterexample :
    hasLiteralMarker c6Node.content = false ∧
    trimS c6Node.content ≠ [] ∧
    startsWithHH c6Node.content = false ∧
    (computeSections c6Node).length = 2 := by
  refine ⟨by decide, by decide, by decide, by decide⟩

/-- Claim C6 amended: for every fragment whose content contains no occurrence
of a newline followed by `##` and a whitespace character, is non-whitespace,
and whose trimmed content does not start with `##`, the splitter produces
exactly one continuation section titled by the fragment's own `chapterTitle`
(with any leading hashes and following whitespace stripped, as the code
strips them from every title). -/
theorem c6_continuation_amended (node : StoryNode)
    (h1 : hasMarkerB node.content = false)
    (h2 : trimS node.content ≠ [])
    (h3 : startsWithHH (trimS node.content) = false) :
    computeSections node =
      [{ title := cleanTitle node.chapterTitle, body := '\n' :: node.content,
         isNewChapter := false }] := by
  have hm : isMarkerStart ('\n' :: node.content) = false :=
    isMarkerStart_nl_false _ h3
  have hsp : splitChapters ('\n' :: node.content) = ['\n' :: node.content] := by
    rw [splitChapters_cons_nl _ hm, splitChapters_no_marker _ h1]
    rfl
  have ht : trimS ('\n' :: node.content) = trimS node.content :=
    trimS_cons_ws '\n' _ (by decide)
  have h2e : (trimS ('\n' :: node.content)).isEmpty = false := by
    rw [ht]
    rcases htt : trimS node.content with _ | _
    · exact absurd htt h2
    · rfl
  simp only [computeSections, hsp, sectionsOfRaw, h2e, Bool.false_eq_true,
    if_false, h3, List.map_nil, List.append_nil, List.filter_cons]
  simp

/-- Witness for the amended C6 at a plain two-word fragment. -/
theorem c6_continuation_witness :
    hasMarkerB c6WNode.content = false ∧
    computeSections c6WNode =
      [{ title := cleanTitle c6WNode.chapterTitle, body := '\n' :: c6WNode.content,
         isNewChapter := false }] :=
  ⟨by decide, c6_continuation_amended c6WNode (by decide) (by decide) (by decide)⟩

/-- Counterexample to claim C7 as stated: pagination is total (the model is a
total function), but a fragment with empty content and no illustration prompt
produces zero pages, not at least one; a history of that single fragment
paginates to the empty page list. -/
theorem c7_counterexample :
    trimS c7Node.content = [] ∧
    (nodePages c7Node 0 GameMode.INTERACTIVE 1).1.length = 0 ∧
    paginate GameMode.INTERACTIVE [c7Node] = [] := by
  refine ⟨by decide, by decide, by decide⟩

/-- Claim C7 amended: pagination and splitting are total by construction, and
a fragment whose body is empty or all-whitespace yields an empty section list
and contributes no text page at all — its only possible page is a single
illustration page when it carries a background image prompt. -/
theorem c7_degradation_amended (node : StoryNode) (i : Nat) (m : GameMode)
    (c : Nat) (h : trimS node.content = []) :
    computeSections node = [] ∧
    ((nodePages node i m c).1 = [] ∨
      ∃ p : BookPage, (nodePages node i m c).1 = [p] ∧
        p.type = PageType.FULL_IMAGE) := by
  have hws : ∀ x ∈ node.content, isWs x = true := allWs_of_trimS_nil _ h
  have hnm : hasMarkerB ('\n' :: node.content) = false := by
    apply hasMarkerB_allWs
    intro x hx
    simp only [List.mem_cons] at hx
    rcases hx with hx | hx
    · rw [hx]
      decide
    · exact hws x hx
  have hsp : splitChapters ('\n' :: node.content) = ['\n' :: node.content] :=
    splitChapters_no_marker _ hnm
  have ht : trimS ('\n' :: node.content) = trimS node.content :=
    trimS_cons_ws '\n' _ (by decide)
  have hsec : computeSections node = [] := by
    simp only [computeSections, hsp, sectionsOfRaw, ht, h]
    simp
  refine ⟨hsec, ?_⟩
  simp only [nodePages, hsec]
  rcases node.backgroundImagePrompt with _ | pr
  · left
    simp [sectionsPagesList]
  · simp only
    split
    · right
      refine ⟨{ id := node.id ++ strLit "-visual", type := PageType.FULL_IMAGE,
                content := [], imagePrompt := some pr, choices := none,
                pageNumber := c, chapterTitle := node.chapterTitle,
                isChapterStart := none }, ?_, rfl⟩
      simp [sectionsPagesList]
    · left
      simp [sectionsPagesList]

/-- Witness for the amended C7 at a whitespace-only fragment. -/
theorem c7_degradation_witness :
    trimS c7WNode.content = [] ∧ computeSections c7WNode = [] ∧
    (nodePages c7WNode 0 GameMode.INTERACTIVE 1).1 = [] := by
  have h := c7_degradation_amended c7WNode 0 GameMode.INTERACTIVE 1 (by decide)
  exact ⟨by decide, h.1, by decide⟩

/-- Claim C8 (navigator bounds): `advance` adds 2 exactly when the index is
below `pageCount - 2` and is otherwise a no-op; `retreat` subtracts 2 exactly
when the index is positive and is otherwise a no-op; and from any even index
in `[0, pageCount - 2]` of an even positive page count, repeated `advance`
converges to and stays at `pageCount - 2` and repeated `retreat` converges to
and stays at `0`. -/
theorem c8_navigator_bounds (pc i : Int) (hpc : 0 < pc) (hpe : pc % 2 = 0)
    (hie : i % 2 = 0) (hi0 : 0 ≤ i) (hi2 : i ≤ pc - 2) :
    (∀ j : Int, j < pc - 2 → advance pc j = j + 2) ∧
    (∀ j : Int, ¬j < pc - 2 → advance pc j = j) ∧
    (∀ j : Int, 0 < j → retreat j = j - 2) ∧
    (∀ j : Int, ¬0 < j → retreat j = j) ∧
    (∀ k : Nat, pc.toNat ≤ k → (advance pc)^[k] i = pc - 2) ∧
    advance pc (pc - 2) = pc - 2 ∧
    (∀ k : Nat, pc.toNat ≤ k → retreat^[k] i = 0) ∧
    retreat 0 = 0 := by
  refine ⟨fun j hj => by simp [advance, hj],
          fun j hj => by simp [advance, hj],
          fun j hj => by simp [retreat, hj],
          fun j hj => by simp [retreat, hj],
          ?_, by simp [advance], ?_, by simp [retreat]⟩
  · intro k hk
    rw [advance_iterate pc i hi0 hi2 hie hpe k]
    apply min_eq_right
    omega
  · intro k hk
    rw [retreat_iterate i hi0 hie k]
    apply max_eq_right
    omega

/-- Witness for C8 at `pageCount = 4` starting from index 0: four `advance`
steps land on 2 and stay, four `retreat` steps land on 0 and stay. -/
theorem c8_navigator_bounds_witness :
    (0 : Int) < 4 ∧ (advance 4)^[4] (0 : Int) = 4 - 2 ∧
    advance 4 (4 - 2 : Int) = 4 - 2 ∧ retreat^[4] (0 : Int) = 0 := by
  have h := c8_navigator_bounds 4 0 (by norm_num) (by norm_num) (by norm_num)
    (by norm_num) (by norm_num)
  exact ⟨by norm_num, h.2.2.2.2.1 4 (by norm_num), h.2.2.2.2.2.1,
    h.2.2.2.2.2.2.1 4 (by norm_num)⟩

/-- Claim C9 (character merge): updates are applied in order; with no
same-name entry present, an update missing `name`, `role` or a defined
`affinity` leaves the collection unchanged, and any update that changes the
collection supplies all three and appends exactly one new entry; an update
matching the first entry with its name shallow-merges over that entry, the
update's present fields overriding and the absent ones preserved. -/
theorem c9_character_merge :
    (∀ (cs : List Character) (u : CharacterUpdate) (us : List CharacterUpdate),
      updateCharacters cs (u :: us) = updateCharacters (applyUpdate cs u) us) ∧
    (∀ (cs : List Character) (u : CharacterUpdate),
      (∀ ch ∈ cs, u.name ≠ some ch.name) →
      (u.name = none ∨ u.role = none ∨ u.affinity = none) →
      applyUpdate cs u = cs) ∧
    (∀ (cs : List Character) (u : CharacterUpdate),
      (∀ ch ∈ cs, u.name ≠ some ch.name) →
      applyUpdate cs u ≠ cs →
      u.name.isSome ∧ u.role.isSome ∧ u.affinity.isSome ∧
        applyUpdate cs u = cs ++ [mkChar u]) ∧
    (∀ (pre : List Character) (c : Character) (post : List Character)
        (u : CharacterUpdate),
      (∀ ch ∈ pre, u.name ≠ some ch.name) → u.name = some c.name →
      applyUpdate (pre ++ c :: post) u = pre ++ mergeChar c u :: post) ∧
    (∀ (c : Character) (u : CharacterUpdate),
      (mergeChar c u).name = u.name.getD c.name ∧
      (mergeChar c u).role = u.role.getD c.role ∧
      (mergeChar c u).affinity = u.affinity.getD c.affinity) := by
  refine ⟨fun cs u us => rfl, ?_, ?_, ?_, fun c u => ⟨rfl, rfl, rfl⟩⟩
  · intro cs u hno hmiss
    rw [applyUpdate_no_match u cs hno]
    have hg : (truthyName u && truthyRole u && u.affinity.isSome) = false := by
      rcases hmiss with h | h | h
      · simp [truthyName, h]
      · simp [truthyRole, h]
      · simp [h]
    rw [hg]
    simp
  · intro cs u hno hne
    rw [applyUpdate_no_match u cs hno] at hne ⊢
    rcases hg : (truthyName u && truthyRole u && u.affinity.isSome) with _ | _
    · rw [hg] at hne
      simp at hne
    · simp only [Bool.and_eq_true] at hg
      refine ⟨?_, ?_, hg.2, by simp⟩
      · rcases hn : u.name with _ | n
        · rw [truthyName, hn] at hg
          simp at hg
        · rfl
      · rcases hr : u.role with _ | r
        · rw [truthyRole, hr] at hg
          simp at hg
        · rfl
  · exact fun pre c post u h hm => applyUpdate_match u pre c post h hm

/-- Witness for C9: the all-absent update is dropped on the empty
collection. -/
theorem c9_character_merge_witness :
    applyUpdate [] emptyUpdate = [] :=
  c9_character_merge.2.1 [] emptyUpdate (by simp) (Or.inl rfl)

/-- Claim C10 (prefix stability): appending one fragment to a history leaves
the previously generated pages — the paginated output of the old history
minus its filler page — as an unchanged initial segment of the new paginated
output. -/
theorem c10_prefix_stability :
    ∀ (m : GameMode) (h : List StoryNode) (f : StoryNode),
      paginateCore m h <+: paginate m (h ++ [f]) ∧
      (paginate m h = paginateCore m h ∨
        paginate m h = paginateCore m h ++
          [fillerPage ((paginateCore m h).length + 1)]) := by
  intro m h f
  constructor
  · have ha := (historyPages_append m h [f] 0 1).1
    have hcore : paginateCore m (h ++ [f]) =
        paginateCore m h ++
          (historyPages m [f] (0 + h.length) (historyPages m h 0 1).2).1 := ha
    rcases paginate_shape m (h ++ [f]) with ⟨_, he⟩ | ⟨_, he⟩
    · rw [he, hcore]
      exact ⟨_, rfl⟩
    · rw [he, hcore, List.append_assoc]
      exact ⟨_, rfl⟩
  · rcases paginate_shape m h with ⟨_, he⟩ | ⟨_, he⟩
    · exact Or.inl he
    · exact Or.inr he
